import Mathlib

/-!
Verification development for the pbsmake recipe interpreter
(`src/pbsmake.py`).  The Python source is shallowly embedded: strings
are lists of characters, Python dicts are association lists with unique
keys, the two scanning loops of `Env.interp` and `execshellcmds` are
modelled with explicit fuel (they can diverge in the source), and the
external batch-scheduler client is abstracted (the submission driver is
modelled as recording the submitted target names, per the spec's
"abstract submission interface").
-/

/-- Python strings are modelled as lists of characters. -/
abbrev Str := List Char

/-- Shorthand for embedding Lean string literals into the model. -/
def str (s : String) : Str := s.toList

/-- Python slicing `s[a:b]` for `0 ≤ a ≤ b`. -/
def pySlice (s : Str) (a b : Nat) : Str := (s.take b).drop a

/-- Python `str.rstrip()`: drop all trailing whitespace. -/
def rstripL (s : Str) : Str := (s.reverse.dropWhile Char.isWhitespace).reverse

/-! ## Python dict as association list

`dictGet`, `dictSet`, `dictSetdefault` and `dictUpdate` model lookup,
item assignment, `dict.setdefault` and `dict.update` on a Python dict
whose bindings are kept in insertion order. -/

/-- Dict lookup: first binding whose key matches. -/
def dictGet {α : Type} (l : List (Str × α)) (k : Str) : Option α :=
  match l with
  | [] => none
  | (k₁, v) :: t => if k₁ = k then some v else dictGet t k

/-- Dict assignment: overwrite the binding if present, else append. -/
def dictSet {α : Type} (l : List (Str × α)) (k : Str) (v : α) : List (Str × α) :=
  match l with
  | [] => [(k, v)]
  | (k₁, v₁) :: t => if k₁ = k then (k₁, v) :: t else (k₁, v₁) :: dictSet t k v

/-- Python `dict.setdefault`: insert only when the key is absent. -/
def dictSetdefault {α : Type} (l : List (Str × α)) (k : Str) (v : α) : List (Str × α) :=
  match dictGet l k with
  | some _ => l
  | none => l ++ [(k, v)]

/-- Python `dict.update`: fold the given bindings over the dict. -/
def dictUpdate {α : Type} (base upd : List (Str × α)) : List (Str × α) :=
  upd.foldl (fun acc kv => dictSet acc kv.1 kv.2) base

/-! ## Env (src/pbsmake.py lines 16-49)

`Env` holds a local dict `env` over an inherited dict `parent`.
`deepcopy` is the identity in this pure model. -/

/-- The two-level variable store `Env` of pbsmake. -/
structure EnvT where
  env : List (Str × Str)
  parent : List (Str × Str)
deriving DecidableEq, Inhabited

/-- `Env.__getitem__`: `self.env.get(key) or self.parent[key]`.
A local empty value is falsy in Python, so it falls through to the
parent; a missing parent key is a `KeyError`, modelled as `none`. -/
def envGetItem (e : EnvT) (k : Str) : Option Str :=
  match dictGet e.env k with
  | some v => if v = [] then dictGet e.parent k else some v
  | none => dictGet e.parent k

/-- `Env.__setitem__`: writes to the local dict. -/
def envSetItem (e : EnvT) (k v : Str) : EnvT :=
  { e with env := dictSet e.env k v }

/-- `Env.setdefault`: `return self.parent.setdefault(key, value)` —
note that it consults and writes the parent dict, not the local one. -/
def envSetdefault (e : EnvT) (k v : Str) : EnvT :=
  { e with parent := dictSetdefault e.parent k v }

/-! ## Variable interpolation (`Env.interp`, lines 40-49)

The regex is `(?<!\\)\${[a-zA-Z_][a-zA-Z_0-9]*}`.  The loop body skips
`pm_target_match` when `defer` is set — with a bare `continue`, leaving
the match unchanged — and after a substitution it searches
`string[end:]` but treats the resulting pySlice-relative span as absolute
on the next iteration.  Both behaviours are reproduced exactly; the
loop is given fuel because the `continue` makes it non-terminating. -/

/-- First character class `[a-zA-Z_]` of the interpolation token. -/
def idStart (c : Char) : Bool := c.isAlpha || c = '_'

/-- Trailing character class `[a-zA-Z_0-9]` of the interpolation token. -/
def idCont (c : Char) : Bool := c.isAlpha || c.isDigit || c = '_'

/-- Length of a `$\x7bNAME\x7d` token starting at the head of `s`,
if one starts here. -/
def tokenAt (s : Str) : Option Nat :=
  match s with
  | '$' :: '\x7b' :: c :: rest =>
    if idStart c then
      match (rest.drop ((rest.takeWhile idCont).length)).head? with
      | some '\x7d' => some (3 + (rest.takeWhile idCont).length + 1)
      | _ => none
    else none
  | _ => none

/-- Scan for the leftmost interpolation token, tracking the previous
character for the `(?<!\\)` look-behind.  Returns the match span. -/
def findTokAux : Option Char → Nat → Str → Option (Nat × Nat)
  | _, _, [] => none
  | prev, pos, c :: rest =>
    match (if prev = some '\\' then none else tokenAt (c :: rest)) with
    | some len => some (pos, pos + len)
    | none => findTokAux (some c) (pos + 1) rest

/-- `re.search` for the interpolation regex on a whole string. -/
def findTok (s : Str) : Option (Nat × Nat) := findTokAux none 0 s

/-- The `while match:` loop of `Env.interp`.  The carried span is used
as absolute even when it came from searching `string[end:]`, exactly as
in the source.  `none` means the fuel ran out (the loop did not
terminate within `fuel` iterations); `some (.error k)` is the
`KeyError` raised on an undefined variable. -/
def interpLoop (e : EnvT) (defer : Bool) :
    Nat → Str → Option (Nat × Nat) → Option (Except Str Str)
  | _, s, none => some (.ok s)
  | 0, _, some _ => none
  | Nat.succ n, s, some (a, b) =>
    let var := pySlice s (a + 2) (b - 1)
    if defer && (var == str "pm_target_match") then
      interpLoop e defer n s (some (a, b))
    else
      match envGetItem e var with
      | none => some (.error var)
      | some v =>
        let s' := s.take a ++ v ++ s.drop b
        interpLoop e defer n s' (findTok (s'.drop b))

/-- `Env.interp(string, defer)` with explicit fuel. -/
def interp (e : EnvT) (defer : Bool) (fuel : Nat) (s : Str) :
    Option (Except Str Str) :=
  interpLoop e defer fuel s (findTok s)

/-! ## Shell capture (`execshellcmds`, lines 355-370)

The regex is `\$\((.+)\)`: greedy, `.` does not cross a newline.  The
child process is abstracted as an oracle `sh : Str → Str × Str × Int`
returning `(stdout, stderr, exitcode)`.  The source checks only
`if error:` — a non-empty stderr is fatal (`sys.exit(1)`), the exit
code is never examined — and otherwise splices in `result.rstrip()`.
The re-scan after a substitution has the same pySlice-relative-span bug
as `Env.interp`. -/

/-- Greedy close for `\$\((.+)\)` applied at `m = s.drop (i+2)`:
the largest `g ≥ 1` such that `m[g] = ')'` and no newline occurs in
`m.take g` — found as the last `')'` inside the newline-free head. -/
def greedyClose (s : Str) : Option Nat :=
  match (s.takeWhile (· ≠ '\n')).reverse.findIdx? (· = ')') with
  | none => none
  | some k =>
    let g := (s.takeWhile (· ≠ '\n')).length - 1 - k
    if 1 ≤ g then some g else none

/-- Scan for the leftmost `$(...)` span (matching `re.search`). -/
def findShellAux : Nat → Str → Option (Nat × Nat)
  | _, [] => none
  | pos, c :: rest =>
    if c = '$' then
      match rest with
      | '(' :: body =>
        match greedyClose body with
        | some g => some (pos, pos + 2 + g + 1)
        | none => findShellAux (pos + 1) rest
      | _ => findShellAux (pos + 1) rest
    else findShellAux (pos + 1) rest

/-- `re.search` for the shell-capture regex on a whole string. -/
def findShell (s : Str) : Option (Nat × Nat) := findShellAux 0 s

/-- The `while match:` loop of `execshellcmds`.  `some (.error m)` is
the `sys.exit(1)` taken when the child wrote to stderr. -/
def execLoop (sh : Str → Str × Str × Int) :
    Nat → Str → Option (Nat × Nat) → Option (Except Str Str)
  | _, s, none => some (.ok s)
  | 0, _, some _ => none
  | Nat.succ n, s, some (a, b) =>
    let cmd := pySlice s (a + 2) (b - 1)
    let res := sh cmd
    if res.2.1 ≠ [] then
      some (.error (rstripL res.2.1))
    else
      let s' := s.take a ++ rstripL res.1 ++ s.drop b
      execLoop sh n s' (findShell (s'.drop b))

/-- `execshellcmds(s)` with explicit fuel and the child oracle `sh`. -/
def execshellcmds (sh : Str → Str × Str × Int) (fuel : Nat) (s : Str) :
    Option (Except Str Str) :=
  execLoop sh fuel s (findShell s)

/-! ## The `?=` handler (`varcondecl`, lines 384-388)

`env.setdefault(name, execshellcmds(env.interp(str(value))))`: the
value is interpolated, then shell-expanded, then conditionally stored
through `Env.setdefault`. -/

/-- The `NAME ?= VALUE` parser handler. -/
def varcondecl (sh : Str → Str × Str × Int) (fuel : Nat) (e : EnvT)
    (name value : Str) : Option (Except Str EnvT) :=
  match interp e true fuel value with
  | none => none
  | some (.error m) => some (.error m)
  | some (.ok v₁) =>
    match execshellcmds sh fuel v₁ with
    | none => none
    | some (.error m) => some (.error m)
    | some (.ok v₂) => some (.ok (envSetdefault e name v₂))

/-! ## The target map (`Makefile`, lines 52-149)

A target is a dict with `components`, `cmds`, `attrs`, optionally
`pm_target_match` (set by wildcard resolution) and `env` (set by
`build`).  The map of targets is an insertion-ordered dict from
canonical names to targets. -/

/-- One target of the recipe. -/
structure Target where
  components : List Str := []
  cmds : List Str := []
  attrs : List (Str × Str) := []
  pm_target_match : Option Str := none
  env : Option EnvT := none
deriving DecidableEq, Inhabited

/-- The insertion-ordered target map. -/
abbrev TMap := List (Str × Target)

/-- Target lookup in the map. -/
def lookupT (tm : TMap) (k : Str) : Option Target := dictGet tm k

/-- Components of a target name, `[]` when the name is unknown. -/
def compsOf (tm : TMap) (k : Str) : List Str :=
  match lookupT tm k with
  | some t => t.components
  | none => []

/-- `Makefile.canonicalize`: `re.sub('::afterok', '', name)` removes
every (leftmost, non-overlapping) occurrence of `::afterok`. -/
def canonicalize : Str → Str
  | ':' :: ':' :: 'a' :: 'f' :: 't' :: 'e' :: 'r' :: 'o' :: 'k' :: rest =>
    canonicalize rest
  | c :: rest => c :: canonicalize rest
  | [] => []

/-- Wildcard match of a concrete name `q` against a pattern name `pat`
containing `%`: models `re.match(pat.replace('%', '(\S+)', 1) + '$', q)`
for pattern names free of regex metacharacters.  The prefix before the
first `%` and the suffix after it are matched literally, which forces
the capture to be the middle of `q`; the capture must be non-empty and
whitespace-free (`\S+`). -/
def matchPat (pat q : Str) : Option Str :=
  let pre := pat.takeWhile (· ≠ '%')
  let suf := (pat.dropWhile (· ≠ '%')).drop 1
  if ('%' ∈ pat)
      && (q.take pre.length == pre)
      && (q.drop (q.length - suf.length) == suf)
      && decide (pre.length + suf.length < q.length)
      && ((pySlice q pre.length (q.length - suf.length)).all
            (fun c => ¬ c.isWhitespace)) then
    some (pySlice q pre.length (q.length - suf.length))
  else
    none

/-- One step of the pattern-search fold of `Makefile.resolve`: keep
the match with the strictly shortest capture
(`len(match.group(1)) < minmatch`), so the first pattern encountered
wins a tie. -/
def pickStep (q : Str) (acc : Option (Str × Target × Str))
    (kv : Str × Target) : Option (Str × Target × Str) :=
  match matchPat kv.1 q with
  | none => acc
  | some w =>
    match acc with
    | none => some (kv.1, kv.2, w)
    | some (_, _, w₀) =>
      if w.length < w₀.length then some (kv.1, kv.2, w) else acc

/-- The pattern-search loop of `Makefile.resolve` over the pattern
targets in map order. -/
def pickPat (q : Str) (pats : List (Str × Target)) :
    Option (Str × Target × Str) :=
  pats.foldl (pickStep q) none

/-- Python `str.replace('%', w, 1)`: replace the first `%`, if any. -/
def replacePct (w : Str) (s : Str) : Str :=
  if '%' ∈ s then
    s.takeWhile (· ≠ '%') ++ w ++ (s.dropWhile (· ≠ '%')).drop 1
  else s

/-- The concrete target materialised from a matched pattern target:
a deep copy with `pm_target_match` recorded and `%` substituted in
every component. -/
def mkConcrete (pt : Target) (w : Str) : Target :=
  { pt with
    pm_target_match := some w
    components := pt.components.map (replacePct w) }

/-- The pattern targets of the map: the names containing `%`, in map
order (`[tgt for tgt in targets if '%' in tgt]`). -/
def patternsOf (tm : TMap) : List (Str × Target) :=
  tm.filter (fun kv => decide ('%' ∈ kv.1))

/-- `Makefile.resolve`: return the target if the name is known,
otherwise materialise it from the best-matching pattern target, or
fail (`Could not resolve target`). -/
def resolveT (tm : TMap) (q : Str) : Except Str (TMap × Target) :=
  match lookupT tm q with
  | some t => .ok (tm, t)
  | none =>
    match pickPat q (patternsOf tm) with
    | none => .error (str "Could not resolve target: " ++ q)
    | some (_, pt, w) =>
      let t := mkConcrete pt w
      .ok (tm ++ [(q, t)], t)

/-- `Makefile.addattrs` on one target: the given attributes — valid or
not — are merged into the target's attribute dict first, and only then
are the names validated against the recognised set `known`; the second
component is `true` when the `Unknown pbs attribute(s)` exception is
raised. -/
def addattrsT (known : List Str) (t : Target) (attrs : List (Str × Str)) :
    Target × Bool :=
  ({ t with attrs := dictUpdate t.attrs attrs },
   !((attrs.map (·.1)).filter (fun k => decide (k ∉ known))).isEmpty)

/-! ## `Makefile.build` (lines 151-220)

Four phases, embedded separately: the resolution work-list loop; the
pruning of unresolved targets (which deletes all surviving wildcard
targets and every target not reachable from the requested ones); the
per-target environment derivation; and the depth-first `visit`
producing the schedule.  Submission is modelled as recording the
scheduled names in order (the backend is an external collaborator).
The post-schedule sweep (lines 213-218) looks for a key containing
`::` that is not in the schedule; its body's first expression
evaluates the name `target`, which is unbound at that point in the
source, so reaching the body raises a `NameError` — modelled as an
error result. -/

/-- Sequential `list.remove` of each element of `l` from `xs`:
`map(unresolved.remove, ...)`; `none` models the `ValueError` raised
when an element is absent. -/
def removeAll (xs l : List Str) : Option (List Str) :=
  match l with
  | [] => some xs
  | r :: rest =>
    if r ∈ xs then removeAll (xs.erase r) rest else none

/-- The resolution work-list loop of `build`: pop the first unresolved
name, resolve it (possibly materialising a wildcard match), push its
components, record it resolved, then drop already-resolved names from
the work list. -/
def closureF :
    Nat → TMap → List Str → List Str → Option (Except Str (TMap × List Str))
  | _, tm, [], resolved => some (.ok (tm, resolved))
  | 0, _, _ :: _, _ => none
  | Nat.succ n, tm, tgt :: rest, resolved =>
    match resolveT tm tgt with
    | .error e => some (.error e)
    | .ok (tm', t) =>
      let unres := rest ++ t.components
      let resolved' := resolved ++ [tgt]
      match removeAll unres (resolved'.filter (fun r => decide (r ∈ unres))) with
      | none => some (.error (str "ValueError: list.remove(x): x not in list"))
      | some unres' => closureF n tm' unres' resolved'

/-- The pruning step: delete every target not in the resolved list. -/
def pruneT (tm : TMap) (resolved : List Str) : TMap :=
  tm.filter (fun kv => decide (kv.1 ∈ resolved))

/-- The per-target environment derived in `build`: a deep copy of the
recipe environment with `pm_target_name` set locally,
`PBS_O_WORKDIR` defaulted (into the parent, per `Env.setdefault`), and
`pm_target_match` set locally when the target carries one. -/
def mkSubenv (e : EnvT) (cwd name : Str) (pm : Option Str) : EnvT :=
  let e₁ := envSetItem e (str "pm_target_name") name
  let e₂ := envSetdefault e₁ (str "PBS_O_WORKDIR") cwd
  match pm with
  | some w => envSetItem e₂ (str "pm_target_match") w
  | none => e₂

/-- The environment-derivation loop over the pruned target map. -/
def envPhase (tm : TMap) (e : EnvT) (cwd : Str) : TMap :=
  tm.map (fun kv =>
    (kv.1, { kv.2 with env := some (mkSubenv e cwd kv.1 kv.2.pm_target_match) }))

/-- State of the depth-first `visit`: which names have been marked
visited, and the schedule built so far. -/
structure VSt where
  visited : List Str
  schedule : List Str
deriving DecidableEq, Inhabited

/-- The recursive `visit` of `build`: mark the node before recursing
into its components, then append it to the schedule.  There is no
back-edge check, so a cycle is silently broken at the already-visited
node.  A name missing from the map crashes in the source
(`defaultdict` hands back a list); both that crash and fuel exhaustion
are `none`. -/
def visitF (tm : TMap) : Nat → VSt → Str → Option VSt
  | 0, _, _ => none
  | Nat.succ n, st, u =>
    match lookupT tm u with
    | none => none
    | some t =>
      if u ∈ st.visited then some st
      else
        match t.components.foldlM (fun s c => visitF tm n s c)
            (VSt.mk (u :: st.visited) st.schedule) with
        | none => none
        | some st₂ => some (VSt.mk st₂.visited (st₂.schedule ++ [u]))

/-- The `for buildtarget in buildtargets: visit(buildtarget)` loop,
run with fuel one more than the number of targets (enough for any
terminating run, since each nested call marks a fresh key). -/
def schedulePhase (tm : TMap) (roots : List Str) : Option VSt :=
  roots.foldlM (fun st u => visitF tm (tm.length + 1) st u)
    (VSt.mk [] [])

/-- Python `'::' in name`. -/
def hasColons : Str → Bool
  | ':' :: ':' :: _ => true
  | _ :: rest => hasColons rest
  | [] => false

/-- Test of the post-schedule sweep (lines 213-218): is there a key
containing `::` that is not in the schedule?  The body executed for
such a key immediately evaluates the unbound name `target`. -/
def sweepTriggers (tm : TMap) (sched : List Str) : Bool :=
  tm.any (fun kv => hasColons kv.1 && decide (kv.1 ∉ sched))

/-- The outcome of a successful `build`: the final target map, the
schedule, and the names submitted (in order). -/
structure BuildResult where
  targets : TMap
  schedule : List Str
  submitted : List Str
deriving DecidableEq, Inhabited

/-- `Makefile.build(buildtargets)`.  `fuel` bounds the resolution
work-list loop; `dflt` is `self.default`; `e` is the recipe
environment and `cwd` the working directory.  `none` means a crash or
exhausted fuel, `some (.error _)` a raised exception. -/
def buildF (fuel : Nat) (tm : TMap) (e : EnvT) (cwd : Str) (dflt : Str)
    (bts : List Str) : Option (Except Str BuildResult) :=
  let bts := (if bts.isEmpty then [dflt] else bts).map canonicalize
  match closureF fuel tm bts [] with
  | none => none
  | some (.error m) => some (.error m)
  | some (.ok (tm₁, resolved)) =>
    let tm₂ := envPhase (pruneT tm₁ resolved) e cwd
    match schedulePhase tm₂ bts with
    | none => none
    | some st =>
      if sweepTriggers tm₂ st.schedule then
        some (.error (str "NameError: name target is not defined"))
      else
        some (.ok (BuildResult.mk tm₂ st.schedule st.schedule))

/-! ## Ordering invariants of the depth-first schedule

The standard post-order argument: `visit` marks a node (making it
"gray": visited but not yet scheduled) before recursing, and appends it
afterwards.  Under a rank function that strictly decreases along
component edges (the acyclicity hypothesis), a gray node can never be
re-entered, so when a node is appended every component of it is already
in the schedule. -/

/-- A node is gray when it is marked visited but not yet scheduled. -/
def graySt (st : VSt) (x : Str) : Prop := x ∈ st.visited ∧ x ∉ st.schedule

/-- Every scheduled node has all its components scheduled strictly
earlier. -/
def schedOK (tm : TMap) (st : VSt) : Prop :=
  ∀ u ∈ st.schedule, ∀ c ∈ compsOf tm u,
    ∃ l₁ l₂, st.schedule = l₁ ++ u :: l₂ ∧ c ∈ l₁

/-- Every scheduled node is visited. -/
def schedVis (st : VSt) : Prop := ∀ x ∈ st.schedule, x ∈ st.visited

/-- What one `visit` call preserves and produces, state-wise. -/
def visitConj (tm : TMap) (st st' : VSt) : Prop :=
  schedOK tm st' ∧ schedVis st' ∧ (∃ d, st'.schedule = st.schedule ++ d) ∧
  (∀ x ∈ st.visited, x ∈ st'.visited) ∧ (∀ x, graySt st' x ↔ graySt st x)

theorem visitConj_refl (tm : TMap) (st : VSt) (h₁ : schedOK tm st)
    (h₂ : schedVis st) : visitConj tm st st :=
  ⟨h₁, h₂, ⟨[], by simp⟩, fun _ hx => hx, fun _ => Iff.rfl⟩

theorem visitConj_trans {tm : TMap} {st st₁ st₂ : VSt}
    (h : visitConj tm st st₁) (h' : visitConj tm st₁ st₂) :
    visitConj tm st st₂ := by
  obtain ⟨_, _, ⟨d, hd⟩, hv, hg⟩ := h
  obtain ⟨o₁, o₂, ⟨d', hd'⟩, hv', hg'⟩ := h'
  exact ⟨o₁, o₂, ⟨d ++ d', by rw [hd', hd, List.append_assoc]⟩,
    fun x hx => hv' x (hv x hx), fun x => (hg' x).trans (hg x)⟩

/-- The specification of `visitF` at a given fuel. -/
def VisitStmt (tm : TMap) (rank : Str → Nat) (n : Nat) : Prop :=
  ∀ st u st', visitF tm n st u = some st' →
    schedOK tm st → schedVis st → (∀ g, graySt st g → rank u < rank g) →
    visitConj tm st st' ∧ u ∈ st'.schedule

/-- The specification of the component fold at a given fuel. -/
def FoldStmt (tm : TMap) (rank : Str → Nat) (n : Nat) : Prop :=
  ∀ cs st st',
    List.foldlM (fun s c => visitF tm n s c) st cs = some st' →
    schedOK tm st → schedVis st →
    (∀ c ∈ cs, ∀ g, graySt st g → rank c < rank g) →
    visitConj tm st st' ∧ ∀ c ∈ cs, c ∈ st'.schedule

/-- The fold specification follows from the visit specification at the
same fuel, by induction on the component list. -/
theorem fold_of_visit (tm : TMap) (rank : Str → Nat) (n : Nat)
    (hv : VisitStmt tm rank n) : FoldStmt tm rank n := by
  intro cs
  induction cs with
  | nil =>
    intro st st' h h₁ h₂ _
    simp only [List.foldlM_nil] at h
    cases h
    exact ⟨visitConj_refl tm st h₁ h₂, by simp⟩
  | cons c cs ihc =>
    intro st st' h h₁ h₂ hG
    rw [List.foldlM_cons] at h
    cases hvc : visitF tm n st c with
    | none =>
      rw [hvc] at h
      exact Option.noConfusion h
    | some st₁ =>
      rw [hvc] at h
      replace h : List.foldlM (fun s c => visitF tm n s c) st₁ cs = some st' := h
      obtain ⟨hc₁, hm₁⟩ := hv st c st₁ hvc h₁ h₂
        (fun g hg => hG c (List.mem_cons_self c cs) g hg)
      obtain ⟨hc₂, hall⟩ := ihc st₁ st' h hc₁.1 hc₁.2.1
        (fun c' hc' g hg =>
          hG c' (List.mem_cons_of_mem c hc') g ((hc₁.2.2.2.2 g).mp hg))
      refine ⟨visitConj_trans hc₁ hc₂, ?_⟩
      intro c' hc'
      rcases List.mem_cons.mp hc' with hce | hcm
      · subst hce
        obtain ⟨d, hd⟩ := hc₂.2.2.1
        rw [hd]
        exact List.mem_append_left _ hm₁
      · exact hall c' hcm

/-- Unfolding equation of `visitF` at positive fuel. -/
theorem visitF_succ (tm : TMap) (n : Nat) (st : VSt) (u : Str) :
    visitF tm (n + 1) st u =
      match lookupT tm u with
      | none => none
      | some t =>
        if u ∈ st.visited then some st
        else
          match t.components.foldlM (fun s c => visitF tm n s c)
              (VSt.mk (u :: st.visited) st.schedule) with
          | none => none
          | some st₂ => some (VSt.mk st₂.visited (st₂.schedule ++ [u])) := rfl

/-- The visit specification holds at every fuel, assuming a rank
function that strictly decreases along every component edge. -/
theorem visit_main (tm : TMap) (rank : Str → Nat)
    (hRank : ∀ u t, lookupT tm u = some t → ∀ c ∈ t.components,
      rank c < rank u) :
    ∀ n, VisitStmt tm rank n := by
  intro n
  induction n with
  | zero => intro st u st' h; exact absurd h (by simp [visitF])
  | succ n ih =>
    have hfold := fold_of_visit tm rank n ih
    intro st u st' h h₁ h₂ hG
    rw [visitF_succ] at h
    cases hl : lookupT tm u with
    | none =>
      rw [hl] at h
      exact Option.noConfusion h
    | some t =>
      rw [hl] at h
      replace h : (if u ∈ st.visited then some st
          else match t.components.foldlM (fun s c => visitF tm n s c)
              (VSt.mk (u :: st.visited) st.schedule) with
            | none => none
            | some st₂ =>
              some (VSt.mk st₂.visited (st₂.schedule ++ [u]))) = some st' := h
      by_cases hmem : u ∈ st.visited
      · rw [if_pos hmem] at h
        cases h
        refine ⟨visitConj_refl tm st h₁ h₂, ?_⟩
        by_cases hs : u ∈ st.schedule
        · exact hs
        · exact absurd (hG u ⟨hmem, hs⟩) (lt_irrefl _)
      · rw [if_neg hmem] at h
        cases hf : t.components.foldlM (fun s c => visitF tm n s c)
            (VSt.mk (u :: st.visited) st.schedule) with
        | none =>
          rw [hf] at h
          exact Option.noConfusion h
        | some st₂ =>
          rw [hf] at h
          replace h : some (VSt.mk st₂.visited (st₂.schedule ++ [u])) =
              some st' := h
          cases h
          have hus : u ∉ st.schedule := fun hs => hmem (h₂ u hs)
          have hg₁ : ∀ x, graySt (VSt.mk (u :: st.visited) st.schedule) x ↔
              (x = u ∨ graySt st x) := by
            intro x
            constructor
            · rintro ⟨hx, hxs⟩
              rcases List.mem_cons.mp hx with he | hm
              · exact Or.inl he
              · exact Or.inr ⟨hm, hxs⟩
            · rintro (he | ⟨hm, hxs⟩)
              · subst he; exact ⟨List.mem_cons_self _ _, hus⟩
              · exact ⟨List.mem_cons_of_mem _ hm, hxs⟩
          obtain ⟨hc₂, hall⟩ := hfold t.components
            (VSt.mk (u :: st.visited) st.schedule) st₂ hf h₁
            (fun x hx => List.mem_cons_of_mem _ (h₂ x hx))
            (by
              intro c hc g hg
              rcases (hg₁ g).mp hg with he | hgray
              · rw [he]; exact hRank u t hl c hc
              · exact lt_trans (hRank u t hl c hc) (hG g hgray))
          obtain ⟨hOK₂, hSV₂, ⟨d, hd⟩, hvm₂, hgi₂⟩ := hc₂
          have hu₂ : u ∉ st₂.schedule := by
            have : graySt st₂ u := by
              rw [hgi₂ u, hg₁ u]; exact Or.inl rfl
            exact this.2
          constructor
          · refine ⟨?_, ?_, ?_, ?_, ?_⟩
            · -- schedOK for the appended schedule
              intro u' hu' c hc
              rcases List.mem_append.mp hu' with hin | hlast
              · obtain ⟨l₁, l₂, hsp, hcl⟩ := hOK₂ u' hin c hc
                exact ⟨l₁, l₂ ++ [u], by
                  show st₂.schedule ++ [u] = l₁ ++ u' :: (l₂ ++ [u])
                  rw [hsp]; simp, hcl⟩
              · have he : u' = u := by
                  cases List.mem_singleton.mp hlast; rfl
                subst he
                refine ⟨st₂.schedule, [], rfl, ?_⟩
                have hcomp : compsOf tm u' = t.components := by
                  simp [compsOf, hl]
                rw [hcomp] at hc
                exact hall c hc
            · intro x hx
              rcases List.mem_append.mp hx with hin | hlast
              · exact hSV₂ x hin
              · cases List.mem_singleton.mp hlast
                exact hvm₂ u (List.mem_cons_self _ _)
            · exact ⟨d ++ [u], by show st₂.schedule ++ [u] = st.schedule ++ (d ++ [u]); rw [hd]; simp⟩
            · intro x hx
              exact hvm₂ x (List.mem_cons_of_mem _ hx)
            · intro x
              show (x ∈ st₂.visited ∧ x ∉ st₂.schedule ++ [u]) ↔ graySt st x
              constructor
              · rintro ⟨hxv, hxs⟩
                have hxne : x ≠ u := fun he => hxs (by subst he; simp)
                have : graySt st₂ x :=
                  ⟨hxv, fun hin => hxs (List.mem_append_left _ hin)⟩
                rcases (hg₁ x).mp ((hgi₂ x).mp this) with he | hgray
                · exact absurd he hxne
                · exact hgray
              · intro hgray
                have hxne : x ≠ u := by
                  intro he; subst he; exact hmem hgray.1
                have : graySt st₂ x := by
                  rw [hgi₂ x, hg₁ x]; exact Or.inr hgray
                exact ⟨this.1, fun hin => by
                  rcases List.mem_append.mp hin with h₃ | h₄
                  · exact this.2 h₃
                  · exact hxne (List.mem_singleton.mp h₄)⟩
          · show u ∈ st₂.schedule ++ [u]
            simp

/-- A successful dict lookup exhibits a binding of the dict. -/
theorem dictGet_mem {α : Type} :
    ∀ (l : List (Str × α)) (k : Str) (v : α),
      dictGet l k = some v → (k, v) ∈ l := by
  intro l
  induction l with
  | nil => intro k v h; exact Option.noConfusion h
  | cons kv t ih =>
    intro k v h
    obtain ⟨k₁, v₁⟩ := kv
    replace h : (if k₁ = k then some v₁ else dictGet t k) = some v := h
    by_cases he : k₁ = k
    · rw [if_pos he] at h
      injection h with hv
      rw [← he, ← hv]
      exact List.mem_cons_self _ _
    · rw [if_neg he] at h
      exact List.mem_cons_of_mem _ (ih k v h)

/-- Claim C2, amended with an acyclicity hypothesis: for every recipe
and requested build targets on which `build` succeeds, IF the resolved
dependency graph is acyclic — witnessed by a rank function that
strictly decreases along every component edge of the final target map —
then the emitted schedule places every component strictly before its
dependent.  (Without the acyclicity hypothesis the claim is false:
see the cyclic counterexample.) -/
theorem build_schedule_sound (fuel : Nat) (tm : TMap) (e : EnvT)
    (cwd dflt : Str) (bts : List Str) (res : BuildResult)
    (rank : Str → Nat)
    (hb : buildF fuel tm e cwd dflt bts = some (.ok res))
    (hr : ∀ kv ∈ res.targets, ∀ c ∈ kv.2.components, rank c < rank kv.1) :
    ∀ u ∈ res.schedule, ∀ v ∈ compsOf res.targets u,
      ∃ l₁ l₂, res.schedule = l₁ ++ u :: l₂ ∧ v ∈ l₁ := by
  replace hb :
      (match closureF fuel tm
          ((if bts.isEmpty then [dflt] else bts).map canonicalize) [] with
        | none => none
        | some (Except.error m) => some (Except.error m)
        | some (Except.ok (tm₁, resolved)) =>
          match schedulePhase (envPhase (pruneT tm₁ resolved) e cwd)
              ((if bts.isEmpty then [dflt] else bts).map canonicalize) with
          | none => none
          | some st =>
            if sweepTriggers (envPhase (pruneT tm₁ resolved) e cwd)
                st.schedule then
              some (Except.error (str "NameError: name target is not defined"))
            else
              some (Except.ok (BuildResult.mk
                (envPhase (pruneT tm₁ resolved) e cwd)
                st.schedule st.schedule))) = some (Except.ok res) := hb
  cases hc : closureF fuel tm
      ((if bts.isEmpty then [dflt] else bts).map canonicalize) [] with
  | none =>
    rw [hc] at hb
    exact Option.noConfusion hb
  | some r =>
    rw [hc] at hb
    cases r with
    | error m => exact Except.noConfusion (Option.some.inj hb)
    | ok p =>
      obtain ⟨tm₁, resolved⟩ := p
      replace hb :
          (match schedulePhase (envPhase (pruneT tm₁ resolved) e cwd)
              ((if bts.isEmpty then [dflt] else bts).map canonicalize) with
            | none => none
            | some st =>
              if sweepTriggers (envPhase (pruneT tm₁ resolved) e cwd)
                  st.schedule then
                some (Except.error (str "NameError: name target is not defined"))
              else
                some (Except.ok (BuildResult.mk
                  (envPhase (pruneT tm₁ resolved) e cwd)
                  st.schedule st.schedule))) = some (Except.ok res) := hb
      cases hs : schedulePhase (envPhase (pruneT tm₁ resolved) e cwd)
          ((if bts.isEmpty then [dflt] else bts).map canonicalize) with
      | none =>
        rw [hs] at hb
        exact Option.noConfusion hb
      | some st =>
        rw [hs] at hb
        replace hb :
            (if sweepTriggers (envPhase (pruneT tm₁ resolved) e cwd)
                st.schedule then
              some (Except.error (str "NameError: name target is not defined"))
            else
              some (Except.ok (BuildResult.mk
                (envPhase (pruneT tm₁ resolved) e cwd)
                st.schedule st.schedule))) = some (Except.ok res) := hb
        by_cases hsw : sweepTriggers (envPhase (pruneT tm₁ resolved) e cwd)
            st.schedule
        · rw [if_pos hsw] at hb
          exact Except.noConfusion (Option.some.inj hb)
        · rw [if_neg hsw] at hb
          replace hb := Except.ok.inj (Option.some.inj hb)
          subst hb
          have hRank : ∀ u t,
              lookupT (envPhase (pruneT tm₁ resolved) e cwd) u = some t →
              ∀ c ∈ t.components, rank c < rank u := by
            intro u t hl c hcc
            exact hr (u, t) (dictGet_mem _ u t hl) c hcc
          have hfold := fold_of_visit (envPhase (pruneT tm₁ resolved) e cwd)
            rank ((envPhase (pruneT tm₁ resolved) e cwd).length + 1)
            (visit_main _ rank hRank _)
          obtain ⟨hconj, _⟩ := hfold
            ((if bts.isEmpty then [dflt] else bts).map canonicalize)
            (VSt.mk [] []) st hs
            (by intro u hu; exact absurd hu (List.not_mem_nil u))
            (by intro x hx; exact absurd hx (List.not_mem_nil x))
            (by intro c _ g hg; exact absurd hg.1 (List.not_mem_nil g))
          exact hconj.1

/-! ## Dict update lemmas (for `addattrs`) -/

/-- Setting a key makes it present with the given value. -/
theorem dictGet_dictSet_self {α : Type} :
    ∀ (l : List (Str × α)) (k : Str) (v : α),
      dictGet (dictSet l k v) k = some v := by
  intro l
  induction l with
  | nil =>
    intro k v
    show (if k = k then some v else dictGet [] k) = some v
    rw [if_pos rfl]
  | cons kv t ih =>
    intro k v
    obtain ⟨k₁, v₁⟩ := kv
    show dictGet (if k₁ = k then (k₁, v) :: t else (k₁, v₁) :: dictSet t k v)
        k = some v
    by_cases he : k₁ = k
    · rw [if_pos he]
      show (if k₁ = k then some v else dictGet t k) = some v
      rw [if_pos he]
    · rw [if_neg he]
      show (if k₁ = k then some v₁ else dictGet (dictSet t k v) k) = some v
      rw [if_neg he]
      exact ih k v

/-- Setting some key never removes another key. -/
theorem dictGet_dictSet_mono {α : Type} :
    ∀ (l : List (Str × α)) (k k' : Str) (v : α),
      dictGet l k ≠ none → dictGet (dictSet l k' v) k ≠ none := by
  intro l
  induction l with
  | nil => intro k k' v h; exact absurd rfl h
  | cons kv t ih =>
    intro k k' v h
    obtain ⟨k₁, v₁⟩ := kv
    replace h : (if k₁ = k then some v₁ else dictGet t k) ≠ none := h
    show dictGet (if k₁ = k' then (k₁, v) :: t else (k₁, v₁) :: dictSet t k' v)
        k ≠ none
    by_cases he : k₁ = k'
    · rw [if_pos he]
      show (if k₁ = k then some v else dictGet t k) ≠ none
      by_cases hk : k₁ = k
      · rw [if_pos hk]; exact Option.noConfusion
      · rw [if_neg hk]; rw [if_neg hk] at h; exact h
    · rw [if_neg he]
      show (if k₁ = k then some v₁ else dictGet (dictSet t k' v) k) ≠ none
      by_cases hk : k₁ = k
      · rw [if_pos hk]; exact Option.noConfusion
      · rw [if_neg hk]; rw [if_neg hk] at h; exact ih k k' v h

/-- After a `dict.update`, every key that was present before or occurs
in the update is present. -/
theorem dictGet_dictUpdate_found {α : Type} :
    ∀ (upd base : List (Str × α)) (k : Str),
      (dictGet base k ≠ none ∨ ∃ v, (k, v) ∈ upd) →
      dictGet (dictUpdate base upd) k ≠ none := by
  intro upd
  induction upd with
  | nil =>
    intro base k h
    rcases h with h | ⟨v, hv⟩
    · exact h
    · exact absurd hv (List.not_mem_nil _)
  | cons kv rest ih =>
    intro base k h
    show dictGet (dictUpdate (dictSet base kv.1 kv.2) rest) k ≠ none
    apply ih
    by_cases hk : k = kv.1
    · left
      rw [hk, dictGet_dictSet_self]
      exact Option.noConfusion
    · rcases h with h | ⟨v, hv⟩
      · exact Or.inl (dictGet_dictSet_mono base k kv.1 kv.2 h)
      · rcases List.mem_cons.mp hv with he | hm
        · exact absurd (congrArg Prod.fst he) hk
        · exact Or.inr ⟨v, hm⟩

/-! ## Concrete recipes used by the claims -/

/-- The empty recipe environment. -/
def env0 : EnvT := EnvT.mk [] []

/-- A shell oracle whose children succeed silently. -/
def shNull : Str → Str × Str × Int := fun _ => ([], [], 0)

/-- The cyclic recipe of Scenario E: `A: B` and `B: A`. -/
def tmAB : TMap :=
  [(str "A", { components := [str "B"] }),
   (str "B", { components := [str "A"] })]

/-- The linear chain of Scenario A: `A: B`, `B: C`, `C:`. -/
def tmChain : TMap :=
  [(str "A", { components := [str "B"] }),
   (str "B", { components := [str "C"] }),
   (str "C", {})]

/-- The Scenario B recipe: `job: dep`, `job::afternotok:`, `dep:`,
as it stands after parsing (insertion order preserved). -/
def tmB : TMap :=
  [(str "job", { components := [str "dep"] }),
   (str "job::afternotok", {}),
   (str "dep", {})]

/-- Projection of a build outcome onto the submitted names. -/
def buildSubmitted (fuel : Nat) (tm : TMap) (e : EnvT) (cwd dflt : Str)
    (bts : List Str) : Option (Except Str (List Str)) :=
  (buildF fuel tm e cwd dflt bts).map (Except.map (fun b => b.submitted))

/-- Projection of a build outcome onto schedule and submitted names. -/
def buildSchedSub (fuel : Nat) (tm : TMap) (e : EnvT) (cwd dflt : Str)
    (bts : List Str) : Option (Except Str (List Str × List Str)) :=
  (buildF fuel tm e cwd dflt bts).map
    (Except.map (fun b => (b.schedule, b.submitted)))

/-- The build result of `build("A")` on the cyclic recipe. -/
def cycleRes : BuildResult :=
  match buildF 10 tmAB env0 (str "/cwd") (str "A") [str "A"] with
  | some (.ok b) => b
  | _ => default

/-- The build result of `build("job")` on the Scenario B recipe. -/
def resB : BuildResult :=
  match buildF 10 tmB env0 (str "/cwd") (str "job") [str "job"] with
  | some (.ok b) => b
  | _ => default

/-! ## Claim C1 — cycle handling -/

/-- Claim C1, counterexample: on the cyclic recipe `A: B`, `B: A`
(every node lies on a cycle reachable from the requested target `A`),
`build("A")` does not fail at all — it succeeds and submits both
targets, `B` then `A`.  The claim said it fails with a
`DependencyCycle` error and submits nothing. -/
theorem C1_counterexample :
    buildSubmitted 10 tmAB env0 (str "/cwd") (str "A") [str "A"] =
      some (.ok [str "B", str "A"]) := by rfl

/-- Claim C1, amended: `build` performs no cycle detection.  `visit`
marks a node visited before recursing, so a cycle is silently broken
at the already-visited node: on the cyclic recipe `A: B`, `B: A`,
`build("A")` succeeds, scheduling and submitting each of `B`, `A`
exactly once, in that order. -/
theorem C1_amended :
    buildSchedSub 10 tmAB env0 (str "/cwd") (str "A") [str "A"] =
      some (.ok ([str "B", str "A"], [str "B", str "A"])) := by rfl

/-! ## Claim C5 — multi-token interpolation -/

/-- Claim C5: after a substitution, `Env.interp` searches
`string[end:]` and then reads the next variable name with the
pySlice-relative span applied to the whole string, so with `A=x` and
`B=y` the input with two tokens comes back as `x $\x7bB\x7d` — the second
token is never replaced, contradicting the claim that every token is
replaced. -/
theorem C5_second_token_unreplaced :
    interp (EnvT.mk [(str "A", str "x"), (str "B", str "y")] []) true 9
        (str "${A} ${B}") =
      some (.ok (str "x ${B}")) := by rfl

/-! ## Claim C6 — the post-schedule sweep -/

/-- Claim C6: on the Scenario B recipe, `build("job")` deletes
`job::afternotok` in the pruning step (it is not reachable from `job`),
submits only `dep` then `job`, and the post-schedule sweep finds no
key containing `::` outside the schedule, so `job::afternotok` is
never submitted — contradicting the claimed post-sweep submission with
`depend=afternotok:<id(job)>`. -/
theorem C6_sweep_dead :
    buildF 10 tmB env0 (str "/cwd") (str "job") [str "job"] =
      some (.ok resB) ∧
    resB.submitted = [str "dep", str "job"] ∧
    lookupT resB.targets (str "job::afternotok") = none ∧
    str "job::afternotok" ∉ resB.submitted := by
  refine ⟨rfl, rfl, rfl, ?_⟩
  decide

/-! ## Claim C7 — conditional assignment -/

/-- Claim C7, counterexample: with `X` present in the local overlay
(value `a`) and absent from the parent, the line `X ?= b` stores
`b` into the parent dict — the environment is changed, contradicting
the claim that it is left unchanged whenever `NAME` is present in the
local overlay. -/
theorem C7_counterexample :
    varcondecl shNull 3 (EnvT.mk [(str "X", str "a")] []) (str "X")
        (str "b") =
      some (.ok (EnvT.mk [(str "X", str "a")] [(str "X", str "b")])) ∧
    EnvT.mk [(str "X", str "a")] [(str "X", str "b")] ≠
      EnvT.mk [(str "X", str "a")] [] := by
  exact ⟨rfl, by decide⟩

/-- Claim C7, amended: `NAME ?= VALUE` goes through `Env.setdefault`,
which consults and writes the parent dict: whenever the handler
succeeds, the local overlay is untouched, the environment is unchanged
exactly when `NAME` is already present in the parent, and otherwise
the (interpolated, shell-expanded) value is appended to the parent. -/
theorem C7_amended (sh : Str → Str × Str × Int) (fuel : Nat)
    (e e' : EnvT) (name value : Str)
    (h : varcondecl sh fuel e name value = some (.ok e')) :
    e'.env = e.env ∧
    (dictGet e.parent name ≠ none → e' = e) ∧
    (dictGet e.parent name = none →
      ∃ v, e'.parent = e.parent ++ [(name, v)]) := by
  replace h :
      (match interp e true fuel value with
        | none => none
        | some (Except.error m) => some (Except.error m)
        | some (Except.ok v₁) =>
          match execshellcmds sh fuel v₁ with
          | none => none
          | some (Except.error m) => some (Except.error m)
          | some (Except.ok v₂) =>
            some (Except.ok (envSetdefault e name v₂))) =
        some (Except.ok e') := h
  cases hi : interp e true fuel value with
  | none => rw [hi] at h; exact Option.noConfusion h
  | some r₁ =>
    rw [hi] at h
    cases r₁ with
    | error m => exact Except.noConfusion (Option.some.inj h)
    | ok v₁ =>
      replace h :
          (match execshellcmds sh fuel v₁ with
            | none => none
            | some (Except.error m) => some (Except.error m)
            | some (Except.ok v₂) =>
              some (Except.ok (envSetdefault e name v₂))) =
            some (Except.ok e') := h
      cases hx : execshellcmds sh fuel v₁ with
      | none => rw [hx] at h; exact Option.noConfusion h
      | some r₂ =>
        rw [hx] at h
        cases r₂ with
        | error m => exact Except.noConfusion (Option.some.inj h)
        | ok v₂ =>
          replace h := Except.ok.inj (Option.some.inj h)
          subst h
          show (envSetdefault e name v₂).env = e.env ∧ _ ∧ _
          unfold envSetdefault dictSetdefault
          cases hp : dictGet e.parent name with
          | some w =>
            exact ⟨rfl, fun _ => rfl, fun hc => Option.noConfusion hc⟩
          | none =>
            exact ⟨rfl, fun hc => absurd rfl hc, fun _ => ⟨v₂, rfl⟩⟩

/-- Witness for C7: a fresh name and a token-free value on an empty
environment take the append branch. -/
theorem C7_witness :
    (EnvT.mk [] [(str "X", str "b")]).env = env0.env ∧
    (dictGet env0.parent (str "X") ≠ none →
      EnvT.mk [] [(str "X", str "b")] = env0) ∧
    (dictGet env0.parent (str "X") = none →
      ∃ v, (EnvT.mk [] [(str "X", str "b")]).parent =
        env0.parent ++ [(str "X", v)]) :=
  C7_amended shNull 3 env0 (EnvT.mk [] [(str "X", str "b")]) (str "X")
    (str "b") rfl

/-! ## Claim C8 — environment lookup -/

/-- Claim C8: `Env.__getitem__` returns the local overlay's value when
the key is bound there to a non-empty value, otherwise falls through
to the parent, and yields `KeyError` (modelled as `none`) exactly when
the key is absent from — or empty in — the local overlay and absent
from the parent. -/
theorem C8_lookup (e : EnvT) (k : Str) :
    (∀ v, dictGet e.env k = some v → v ≠ [] → envGetItem e k = some v) ∧
    ((dictGet e.env k = none ∨ dictGet e.env k = some []) →
      envGetItem e k = dictGet e.parent k) ∧
    (envGetItem e k = none ↔
      ((dictGet e.env k = none ∨ dictGet e.env k = some []) ∧
        dictGet e.parent k = none)) := by
  cases hl : dictGet e.env k with
  | none =>
    have hE : envGetItem e k = dictGet e.parent k := by
      unfold envGetItem; rw [hl]
    rw [hE]
    refine ⟨fun v hv => absurd hv (by simp), fun _ => rfl, ?_⟩
    constructor
    · intro hp; exact ⟨Or.inl rfl, hp⟩
    · rintro ⟨_, hp⟩; exact hp
  | some v₀ =>
    by_cases hv₀ : v₀ = []
    · subst hv₀
      have hE : envGetItem e k = dictGet e.parent k := by
        unfold envGetItem; rw [hl]; rfl
      rw [hE]
      refine ⟨?_, fun _ => rfl, ?_⟩
      · intro v hv hne
        exact absurd (Option.some.inj hv).symm hne
      · constructor
        · intro hp; exact ⟨Or.inr rfl, hp⟩
        · rintro ⟨_, hp⟩; exact hp
    · have hE : envGetItem e k = some v₀ := by
        unfold envGetItem; rw [hl]; exact if_neg hv₀
      rw [hE]
      refine ⟨fun v hv _ => hv, ?_, ?_⟩
      · rintro (hn | he)
        · exact Option.noConfusion hn
        · exact absurd (Option.some.inj he) hv₀
      · constructor
        · intro hp; exact Option.noConfusion hp
        · rintro ⟨hn | he, _⟩
          · exact Option.noConfusion hn
          · exact absurd (Option.some.inj he) hv₀

/-- Witness for C8 on a concrete environment: a non-empty local value
wins, an absent local key falls to the parent, and a key absent from
both is an error. -/
theorem C8_witness :
    envGetItem (EnvT.mk [(str "a", str "x")] [(str "b", str "y")])
      (str "a") = some (str "x") ∧
    envGetItem (EnvT.mk [(str "a", str "x")] [(str "b", str "y")])
      (str "b") = dictGet [(str "b", str "y")] (str "b") ∧
    envGetItem (EnvT.mk [(str "a", str "x")] [(str "b", str "y")])
      (str "c") = none :=
  ⟨(C8_lookup (EnvT.mk [(str "a", str "x")] [(str "b", str "y")])
      (str "a")).1 (str "x") rfl (by decide),
   (C8_lookup (EnvT.mk [(str "a", str "x")] [(str "b", str "y")])
      (str "b")).2.1 (Or.inl rfl),
   (C8_lookup (EnvT.mk [(str "a", str "x")] [(str "b", str "y")])
      (str "c")).2.2.mpr ⟨Or.inl rfl, rfl⟩⟩

/-! ## Claim C10 — `addattrs` merges before validating -/

/-- Claim C10, counterexample: when the unrecognised attribute being
added is already present with the same value, the merge is idempotent:
the exception is raised and the target's state IS left unchanged,
contradicting the claim's final clause. -/
theorem C10_counterexample :
    (addattrsT [] { attrs := [(str "zzz", str "1")] }
        [(str "zzz", str "1")]).2 = true ∧
    (addattrsT [] { attrs := [(str "zzz", str "1")] }
        [(str "zzz", str "1")]).1 =
      { attrs := [(str "zzz", str "1")] } := by
  exact ⟨rfl, rfl⟩

/-- Claim C10, amended: when `addattrs` receives a mapping containing
an attribute name outside the recognised set, it raises the unknown-
attribute exception, but only after merging every given attribute —
the unrecognised ones included — into the target's attribute dict: the
resulting attribute dict is always the old dict updated with the given
mapping (so the merge is not rolled back; the state is unchanged only
when that update is idempotent). -/
theorem C10_amended (known : List Str) (t : Target)
    (attrs : List (Str × Str)) (h : ∃ kv ∈ attrs, kv.1 ∉ known) :
    (addattrsT known t attrs).2 = true ∧
    (addattrsT known t attrs).1.attrs = dictUpdate t.attrs attrs ∧
    ∀ kv ∈ attrs, dictGet (addattrsT known t attrs).1.attrs kv.1 ≠ none := by
  obtain ⟨kv₀, hm₀, hk₀⟩ := h
  refine ⟨?_, rfl, ?_⟩
  · show (!((attrs.map (·.1)).filter fun k => decide (k ∉ known)).isEmpty) =
      true
    cases hfe : ((attrs.map (·.1)).filter fun k => decide (k ∉ known)).isEmpty
    · rfl
    · exfalso
      have hmem : kv₀.1 ∈ (attrs.map (·.1)).filter
          fun k => decide (k ∉ known) :=
        List.mem_filter.mpr ⟨List.mem_map_of_mem _ hm₀, decide_eq_true hk₀⟩
      rw [List.isEmpty_iff.mp hfe] at hmem
      exact absurd hmem (List.not_mem_nil _)
  · intro kv hkv
    show dictGet (dictUpdate t.attrs attrs) kv.1 ≠ none
    exact dictGet_dictUpdate_found attrs t.attrs kv.1 (Or.inr ⟨kv.2, hkv⟩)

/-- Witness for C10: adding the unrecognised attribute `zzz` to a
fresh target raises and leaves the attribute merged in. -/
theorem C10_witness :
    (addattrsT [str "N"] {} [(str "zzz", str "1")]).2 = true ∧
    (addattrsT [str "N"] {} [(str "zzz", str "1")]).1.attrs =
      dictUpdate ({} : Target).attrs [(str "zzz", str "1")] ∧
    ∀ kv ∈ [(str "zzz", str "1")],
      dictGet (addattrsT [str "N"] {} [(str "zzz", str "1")]).1.attrs
        kv.1 ≠ none :=
  C10_amended [str "N"] {} [(str "zzz", str "1")]
    ⟨(str "zzz", str "1"), List.mem_cons_self _ _, by decide⟩

/-! ## Claim C4 — deferred interpolation never terminates -/

/-- Claim C4: with deferral enabled, the `continue` in `Env.interp`
re-tests the unchanged match, so interpolating any string whose first
token is `$\x7bpm_target_match\x7d` loops forever (no fuel suffices), for
every environment — the claim said this pass terminates with the token
left intact.  With deferral disabled the token is resolved to the
captured value, as the claim's second half states. -/
theorem C4_defer_loops_forever :
    (∀ (e : EnvT) (n : Nat),
      interp e true n (str "${pm_target_match}") = none) ∧
    interp (EnvT.mk [(str "pm_target_match", str "foo")] []) false 3
        (str "${pm_target_match}") = some (.ok (str "foo")) := by
  constructor
  · intro e n
    induction n with
    | zero => rfl
    | succ n ih => exact ih
  · rfl

/-! ## Claim C2 — schedule order (amended with acyclicity) -/

/-- The rank function witnessing acyclicity of the chain recipe. -/
def rankChain : Str → Nat := fun s =>
  if s = str "A" then 2 else if s = str "B" then 1 else 0

/-- The build result of `build("A")` on the chain recipe. -/
def resChain : BuildResult :=
  match buildF 10 tmChain env0 (str "/cwd") (str "A") [str "A"] with
  | some (.ok b) => b
  | _ => default

/-- Witness for C2 on the acyclic chain `A: B`, `B: C`, `C:`:
the component `B` of the requested target `A` appears strictly before
`A` in the emitted schedule. -/
theorem C2_witness :
    ∃ l₁ l₂, resChain.schedule = l₁ ++ str "A" :: l₂ ∧ str "B" ∈ l₁ :=
  build_schedule_sound 10 tmChain env0 (str "/cwd") (str "A") [str "A"]
    resChain rankChain rfl (by decide) (str "A") (by decide)
    (str "B") (by decide)

/-- Claim C2, counterexample: the claim as stated quantifies over every
recipe and target that resolves, but on the cyclic recipe `A: B`,
`B: A` the build succeeds with schedule `[B, A]`, `A` is a component
of `B`, and `A` does not appear strictly before `B`. -/
theorem C2_counterexample :
    buildF 10 tmAB env0 (str "/cwd") (str "A") [str "A"] =
      some (.ok cycleRes) ∧
    cycleRes.schedule = [str "B", str "A"] ∧
    str "A" ∈ compsOf cycleRes.targets (str "B") ∧
    ¬ ∃ l₁ l₂, cycleRes.schedule = l₁ ++ str "B" :: l₂ ∧ str "A" ∈ l₁ := by
  refine ⟨rfl, rfl, by decide, ?_⟩
  rintro ⟨l₁, l₂, hsp, hmem⟩
  rw [show cycleRes.schedule = [str "B", str "A"] from rfl] at hsp
  cases l₁ with
  | nil => exact absurd hmem (List.not_mem_nil _)
  | cons x l₁' =>
    injection hsp with h₁ h₂
    cases l₁' with
    | nil =>
      injection h₂ with h₃ _
      exact absurd h₃ (by decide)
    | cons y l₁'' =>
      injection h₂ with h₃ h₄
      exact absurd h₄.symm (by simp)

/-! ## The shortest-capture selection of `Makefile.resolve` -/

/-- When no pattern in the list matches, the fold returns its seed. -/
theorem pickFold_none (q : Str) :
    ∀ (pats : List (Str × Target)) (acc : Option (Str × Target × Str)),
      (∀ kv ∈ pats, matchPat kv.1 q = none) →
      pats.foldl (pickStep q) acc = acc := by
  intro pats
  induction pats with
  | nil => intro acc _; rfl
  | cons kv rest ih =>
    intro acc hall
    rw [List.foldl_cons]
    have hstep : pickStep q acc kv = acc := by
      unfold pickStep
      rw [hall kv (List.mem_cons_self _ _)]
    rw [hstep]
    exact ih acc (fun kv' h => hall kv' (List.mem_cons_of_mem _ h))

/-- The fold never drops a non-`none` accumulator. -/
theorem pickFold_some_of_acc (q : Str) :
    ∀ (pats : List (Str × Target)) (acc : Option (Str × Target × Str)),
      acc ≠ none → pats.foldl (pickStep q) acc ≠ none := by
  intro pats
  induction pats with
  | nil => intro acc h; exact h
  | cons kv rest ih =>
    intro acc h
    rw [List.foldl_cons]
    apply ih
    cases hm : matchPat kv.1 q with
    | none =>
      have hstep : pickStep q acc kv = acc := by unfold pickStep; rw [hm]
      rw [hstep]; exact h
    | some w =>
      cases acc with
      | none =>
        have hstep : pickStep q none kv = some (kv.1, kv.2, w) := by
          unfold pickStep; rw [hm]
        rw [hstep]
        intro hc; exact Option.noConfusion hc
      | some a =>
        obtain ⟨p₀, t₀, w₀⟩ := a
        have hstep : pickStep q (some (p₀, t₀, w₀)) kv =
            (if w.length < w₀.length then some (kv.1, kv.2, w)
             else some (p₀, t₀, w₀)) := by
          unfold pickStep; rw [hm]
        rw [hstep]
        by_cases hlt : w.length < w₀.length
        · rw [if_pos hlt]; intro hc; exact Option.noConfusion hc
        · rw [if_neg hlt]; intro hc; exact Option.noConfusion hc

/-- If some pattern in the list matches, the fold yields a result. -/
theorem pickFold_some_of_match (q : Str) :
    ∀ (pats : List (Str × Target)) (acc : Option (Str × Target × Str))
      (kv₀ : Str × Target) (w₀ : Str),
      kv₀ ∈ pats → matchPat kv₀.1 q = some w₀ →
      pats.foldl (pickStep q) acc ≠ none := by
  intro pats
  induction pats with
  | nil => intro acc kv₀ w₀ h _; exact absurd h (List.not_mem_nil _)
  | cons kv rest ih =>
    intro acc kv₀ w₀ hmem hm
    rw [List.foldl_cons]
    rcases List.mem_cons.mp hmem with he | hr
    · apply pickFold_some_of_acc
      rw [he] at hm
      cases acc with
      | none =>
        have hstep : pickStep q none kv = some (kv.1, kv.2, w₀) := by
          unfold pickStep; rw [hm]
        rw [hstep]
        intro hc; exact Option.noConfusion hc
      | some a =>
        obtain ⟨p₀, t₀, wc⟩ := a
        have hstep : pickStep q (some (p₀, t₀, wc)) kv =
            (if w₀.length < wc.length then some (kv.1, kv.2, w₀)
             else some (p₀, t₀, wc)) := by
          unfold pickStep; rw [hm]
        rw [hstep]
        by_cases hlt : w₀.length < wc.length
        · rw [if_pos hlt]; intro hc; exact Option.noConfusion hc
        · rw [if_neg hlt]; intro hc; exact Option.noConfusion hc
    · exact ih (pickStep q acc kv) kv₀ w₀ hr hm

/-- The fold's result has the weakly smallest capture among the seed
and every match in the list. -/
theorem pickFold_min (q : Str) :
    ∀ (pats : List (Str × Target)) (acc : Option (Str × Target × Str))
      (p : Str) (t : Target) (w : Str),
      pats.foldl (pickStep q) acc = some (p, t, w) →
      (∀ p₀ t₀ w₀, acc = some (p₀, t₀, w₀) → w.length ≤ w₀.length) ∧
      (∀ kv ∈ pats, ∀ w', matchPat kv.1 q = some w' →
        w.length ≤ w'.length) := by
  intro pats
  induction pats with
  | nil =>
    intro acc p t w h
    constructor
    · intro p₀ t₀ w₀ ha
      rw [ha] at h
      injection h with h'
      injection h' with h1 h'
      injection h' with h2 h3
      rw [h3]
    · intro kv h'; exact absurd h' (List.not_mem_nil _)
  | cons kv rest ih =>
    intro acc p t w h
    rw [List.foldl_cons] at h
    obtain ⟨hacc', hrest⟩ := ih (pickStep q acc kv) p t w h
    constructor
    · intro p₀ t₀ w₀ ha
      cases hm : matchPat kv.1 q with
      | none =>
        have hstep : pickStep q acc kv = acc := by unfold pickStep; rw [hm]
        exact hacc' p₀ t₀ w₀ (hstep.trans ha)
      | some w' =>
        have hstep : pickStep q acc kv =
            (if w'.length < w₀.length then some (kv.1, kv.2, w')
             else some (p₀, t₀, w₀)) := by
          unfold pickStep; rw [hm, ha]
        by_cases hlt : w'.length < w₀.length
        · rw [if_pos hlt] at hstep
          exact le_trans (hacc' kv.1 kv.2 w' hstep) (le_of_lt hlt)
        · rw [if_neg hlt] at hstep
          exact hacc' p₀ t₀ w₀ hstep
    · intro kv' hmem w' hm'
      rcases List.mem_cons.mp hmem with he | hr
      · rw [he] at hm'
        cases acc with
        | none =>
          have hstep : pickStep q none kv = some (kv.1, kv.2, w') := by
            unfold pickStep; rw [hm']
          exact hacc' kv.1 kv.2 w' hstep
        | some a =>
          obtain ⟨p₀, t₀, w₀⟩ := a
          have hstep : pickStep q (some (p₀, t₀, w₀)) kv =
              (if w'.length < w₀.length then some (kv.1, kv.2, w')
               else some (p₀, t₀, w₀)) := by
            unfold pickStep; rw [hm']
          by_cases hlt : w'.length < w₀.length
          · rw [if_pos hlt] at hstep
            exact hacc' kv.1 kv.2 w' hstep
          · rw [if_neg hlt] at hstep
            exact le_trans (hacc' p₀ t₀ w₀ hstep) (Nat.le_of_not_lt hlt)
      · exact hrest kv' hr w' hm'

/-- The fold's result is either the seed itself, or the first pattern
in the list achieving the (strictly smallest) winning capture: every
pattern before it in the list matches only with a strictly longer
capture, and it strictly beats the seed. -/
theorem pickFold_first (q : Str) :
    ∀ (pats : List (Str × Target)) (acc : Option (Str × Target × Str))
      (p : Str) (t : Target) (w : Str),
      pats.foldl (pickStep q) acc = some (p, t, w) →
      acc = some (p, t, w) ∨
      (matchPat p q = some w ∧
       (∀ p₀ t₀ w₀, acc = some (p₀, t₀, w₀) → w.length < w₀.length) ∧
       ∃ l₁ l₂, pats = l₁ ++ (p, t) :: l₂ ∧
         ∀ kv ∈ l₁, ∀ w', matchPat kv.1 q = some w' →
           w.length < w'.length) := by
  intro pats
  induction pats with
  | nil => intro acc p t w h; exact Or.inl h
  | cons kv rest ih =>
    intro acc p t w h
    rw [List.foldl_cons] at h
    rcases ih (pickStep q acc kv) p t w h with
      hL | ⟨hmp, haccs, l₁, l₂, hsp, hl₁⟩
    · cases hm : matchPat kv.1 q with
      | none =>
        have hstep : pickStep q acc kv = acc := by unfold pickStep; rw [hm]
        exact Or.inl (hstep.symm.trans hL)
      | some w' =>
        cases acc with
        | none =>
          have hstep : pickStep q none kv = some (kv.1, kv.2, w') := by
            unfold pickStep; rw [hm]
          rw [hstep] at hL
          injection hL with hL'
          injection hL' with h1 hL''
          injection hL'' with h2 h3
          right
          refine ⟨?_, ?_, [], rest, ?_, ?_⟩
          · rw [← h1, ← h3]; exact hm
          · intro p₀ t₀ w₀ ha; exact Option.noConfusion ha
          · rw [← h1, ← h2]; rfl
          · intro kv' h'; exact absurd h' (List.not_mem_nil _)
        | some a =>
          obtain ⟨p₀, t₀, w₀⟩ := a
          have hstep : pickStep q (some (p₀, t₀, w₀)) kv =
              (if w'.length < w₀.length then some (kv.1, kv.2, w')
               else some (p₀, t₀, w₀)) := by
            unfold pickStep; rw [hm]
          by_cases hlt : w'.length < w₀.length
          · rw [if_pos hlt] at hstep
            rw [hstep] at hL
            injection hL with hL'
            injection hL' with h1 hL''
            injection hL'' with h2 h3
            right
            refine ⟨?_, ?_, [], rest, ?_, ?_⟩
            · rw [← h1, ← h3]; exact hm
            · intro p₁ t₁ w₁ ha
              injection ha with ha'
              injection ha' with e1 ha''
              injection ha'' with e2 e3
              rw [← h3, ← e3]
              exact hlt
            · rw [← h1, ← h2]; rfl
            · intro kv' h'; exact absurd h' (List.not_mem_nil _)
          · rw [if_neg hlt] at hstep
            exact Or.inl (hstep.symm.trans hL)
    · right
      refine ⟨hmp, ?_, kv :: l₁, l₂, by rw [hsp]; rfl, ?_⟩
      · intro p₀ t₀ w₀ ha
        cases hm : matchPat kv.1 q with
        | none =>
          have hstep : pickStep q acc kv = acc := by
            unfold pickStep; rw [hm]
          exact haccs p₀ t₀ w₀ (hstep.trans ha)
        | some w' =>
          have hstep : pickStep q acc kv =
              (if w'.length < w₀.length then some (kv.1, kv.2, w')
               else some (p₀, t₀, w₀)) := by
            unfold pickStep; rw [hm, ha]
          by_cases hlt : w'.length < w₀.length
          · rw [if_pos hlt] at hstep
            exact lt_trans (haccs kv.1 kv.2 w' hstep) hlt
          · rw [if_neg hlt] at hstep
            exact haccs p₀ t₀ w₀ hstep
      · intro kv' hmem w' hm'
        rcases List.mem_cons.mp hmem with he | hr
        · rw [he] at hm'
          cases acc with
          | none =>
            have hstep : pickStep q none kv = some (kv.1, kv.2, w') := by
              unfold pickStep; rw [hm']
            exact haccs kv.1 kv.2 w' hstep
          | some a =>
            obtain ⟨p₀, t₀, w₀⟩ := a
            have hstep : pickStep q (some (p₀, t₀, w₀)) kv =
                (if w'.length < w₀.length then some (kv.1, kv.2, w')
                 else some (p₀, t₀, w₀)) := by
              unfold pickStep; rw [hm']
            by_cases hlt : w'.length < w₀.length
            · rw [if_pos hlt] at hstep
              exact haccs kv.1 kv.2 w' hstep
            · rw [if_neg hlt] at hstep
              exact lt_of_lt_of_le (haccs p₀ t₀ w₀ hstep)
                (Nat.le_of_not_lt hlt)
        · exact hl₁ kv' hr w' hm'

/-! ## Claim C3 — wildcard resolution -/

/-- Claim C3: for a requested name `q` absent from the target map,
`Makefile.resolve` searches every pattern target for a match of `q`
(pattern prefix/suffix around `%`, non-empty whitespace-free capture,
anchored); if none matches it fails with the unresolved-target error,
and otherwise exactly one concrete target is appended to the map,
built from the winning pattern by recording the capture in
`pm_target_match` and substituting `%` by the capture in every
component — where the winning pattern has the weakly shortest capture
overall and strictly beats every pattern encountered before it. -/
theorem C3_resolution (tm : TMap) (q : Str) (hq : lookupT tm q = none) :
    ((∀ kv ∈ patternsOf tm, matchPat kv.1 q = none) →
      resolveT tm q = .error (str "Could not resolve target: " ++ q)) ∧
    (∀ kv₀ ∈ patternsOf tm, ∀ w₀, matchPat kv₀.1 q = some w₀ →
      ∃ p pt w,
        (p, pt) ∈ patternsOf tm ∧
        matchPat p q = some w ∧
        resolveT tm q = .ok (tm ++ [(q, mkConcrete pt w)], mkConcrete pt w) ∧
        (mkConcrete pt w).pm_target_match = some w ∧
        (mkConcrete pt w).components = pt.components.map (replacePct w) ∧
        (∀ kv ∈ patternsOf tm, ∀ w', matchPat kv.1 q = some w' →
          w.length ≤ w'.length) ∧
        ∃ l₁ l₂, patternsOf tm = l₁ ++ (p, pt) :: l₂ ∧
          ∀ kv ∈ l₁, ∀ w', matchPat kv.1 q = some w' →
            w.length < w'.length) := by
  have heq : resolveT tm q =
      (match pickPat q (patternsOf tm) with
        | none => Except.error (str "Could not resolve target: " ++ q)
        | some (_, pt, w) =>
          Except.ok (tm ++ [(q, mkConcrete pt w)], mkConcrete pt w)) := by
    unfold resolveT
    rw [hq]
  constructor
  · intro hall
    have hpick : pickPat q (patternsOf tm) = none :=
      pickFold_none q (patternsOf tm) none hall
    rw [heq, hpick]
  · intro kv₀ hkv₀ w₀ hm₀
    have hne : pickPat q (patternsOf tm) ≠ none :=
      pickFold_some_of_match q (patternsOf tm) none kv₀ w₀ hkv₀ hm₀
    cases hp : pickPat q (patternsOf tm) with
    | none => exact absurd hp hne
    | some r =>
      obtain ⟨p, pt, w⟩ := r
      rcases pickFold_first q (patternsOf tm) none p pt w hp with
        hL | ⟨hmp, _, l₁, l₂, hsp, hl₁⟩
      · exact absurd hL.symm (by simp)
      obtain ⟨_, hmin⟩ := pickFold_min q (patternsOf tm) none p pt w hp
      refine ⟨p, pt, w, ?_, hmp, ?_, rfl, rfl, hmin, l₁, l₂, hsp, hl₁⟩
      · rw [hsp]
        exact List.mem_append_right _ (List.mem_cons_self _ _)
      · rw [heq, hp]

/-- The two-pattern recipe of Scenario D: `a-%` and `a-%-b`. -/
def tmD : TMap := [(str "a-%", {}), (str "a-%-b", {})]

/-- Witness for C3: resolving `a-x-b` against the patterns `a-%` and
`a-%-b` materialises a concrete target (the winner is the pattern with
the shorter capture `x`). -/
theorem C3_witness :
    ∃ p pt w,
      (p, pt) ∈ patternsOf tmD ∧
      matchPat p (str "a-x-b") = some w ∧
      resolveT tmD (str "a-x-b") =
        .ok (tmD ++ [(str "a-x-b", mkConcrete pt w)], mkConcrete pt w) ∧
      (mkConcrete pt w).pm_target_match = some w ∧
      (mkConcrete pt w).components = pt.components.map (replacePct w) ∧
      (∀ kv ∈ patternsOf tmD, ∀ w', matchPat kv.1 (str "a-x-b") = some w' →
        w.length ≤ w'.length) ∧
      ∃ l₁ l₂, patternsOf tmD = l₁ ++ (p, pt) :: l₂ ∧
        ∀ kv ∈ l₁, ∀ w', matchPat kv.1 (str "a-x-b") = some w' →
          w.length < w'.length :=
  (C3_resolution tmD (str "a-x-b") rfl).2 (str "a-%", {}) (by decide)
    (str "x-b") (by decide)

/-! ## Claim C9 — shell capture -/

/-- Unfolding equation of the shell-span scan at a cons cell. -/
theorem findShellAux_cons (pos : Nat) (c : Char) (rest : Str) :
    findShellAux pos (c :: rest) =
      (if c = '$' then
        (match rest with
          | '(' :: body =>
            (match greedyClose body with
              | some g => some (pos, pos + 2 + g + 1)
              | none => findShellAux (pos + 1) rest)
          | _ => findShellAux (pos + 1) rest)
      else findShellAux (pos + 1) rest) := rfl

/-- A string without a dollar sign contains no shell-capture span. -/
theorem findShellAux_no_dollar :
    ∀ (s : Str) (pos : Nat), (∀ c ∈ s, c ≠ '$') →
      findShellAux pos s = none := by
  intro s
  induction s with
  | nil => intro pos _; rfl
  | cons c rest ih =>
    intro pos h
    rw [findShellAux_cons, if_neg (h c (List.mem_cons_self _ _))]
    exact ih (pos + 1) (fun c' h' => h c' (List.mem_cons_of_mem _ h'))

/-- Characters of `rstrip(s)` are characters of `s`. -/
theorem mem_rstripL {c : Char} {l : Str} (h : c ∈ rstripL l) : c ∈ l := by
  unfold rstripL at h
  rw [List.mem_reverse] at h
  exact List.mem_reverse.mp ((List.dropWhile_sublist _).subset h)

/-- The first shell-capture span of `$(cmd)` for a non-empty,
newline-free `cmd` is the whole string: the greedy group runs to the
final closing parenthesis. -/
theorem findShell_head (cmd : Str) (hne : cmd ≠ []) (hnl : '\n' ∉ cmd) :
    findShell ('$' :: '(' :: (cmd ++ [')'])) =
      some (0, cmd.length + 3) := by
  have hgc : greedyClose (cmd ++ [')']) = some cmd.length := by
    unfold greedyClose
    have htw : (cmd ++ [')']).takeWhile (fun c => decide (c ≠ '\n')) =
        cmd ++ [')'] := by
      apply List.takeWhile_eq_self_iff.mpr
      intro x hx
      rcases List.mem_append.mp hx with hx | hx
      · exact decide_eq_true (fun he => hnl (he ▸ hx))
      · cases List.mem_singleton.mp hx
        exact decide_eq_true (by decide)
    rw [htw]
    have hrev : (cmd ++ [')']).reverse = ')' :: cmd.reverse := by simp
    rw [hrev, List.findIdx?_cons, if_pos (by decide)]
    have hlen : (cmd ++ [')']).length - 1 - 0 = cmd.length := by
      simp
    show (if 1 ≤ (cmd ++ [')']).length - 1 - 0 then
        some ((cmd ++ [')']).length - 1 - 0) else none) = some cmd.length
    rw [hlen]
    rw [if_pos (show 1 ≤ cmd.length from List.length_pos.mpr hne)]
  show findShellAux 0 ('$' :: '(' :: (cmd ++ [')'])) =
    some (0, cmd.length + 3)
  rw [findShellAux_cons, if_pos rfl]
  show (match greedyClose (cmd ++ [')']) with
    | some g => some (0, 0 + 2 + g + 1)
    | none => findShellAux (0 + 1) ('(' :: (cmd ++ [')']))) =
    some (0, cmd.length + 3)
  rw [hgc]
  show some (0, 0 + 2 + cmd.length + 1) = some (0, cmd.length + 3)
  have h3 : 0 + 2 + cmd.length + 1 = cmd.length + 3 := by omega
  rw [h3]

/-- The `execshellcmds` loop returns the string once no span is found,
at any fuel. -/
theorem execLoop_none (sh : Str → Str × Str × Int) (n : Nat) (s : Str) :
    execLoop sh n s none = some (.ok s) := by
  cases n <;> rfl

/-- Unfolding equation of the `execshellcmds` loop at positive fuel. -/
theorem execLoop_succ (sh : Str → Str × Str × Int) (n : Nat) (s : Str)
    (a b : Nat) :
    execLoop sh (n + 1) s (some (a, b)) =
      (if (sh (pySlice s (a + 2) (b - 1))).2.1 ≠ [] then
        some (.error (rstripL (sh (pySlice s (a + 2) (b - 1))).2.1))
      else
        execLoop sh n
          (s.take a ++ rstripL (sh (pySlice s (a + 2) (b - 1))).1 ++
            s.drop b)
          (findShell
            ((s.take a ++ rstripL (sh (pySlice s (a + 2) (b - 1))).1 ++
              s.drop b).drop b))) := rfl

/-- Claim C9, amended: for a shell-capture span `$(cmd)` the expansion
is fatal if and only if the child produced non-empty stderr — the exit
code (`code` below is arbitrary) is never examined; otherwise the span
is replaced by the child's stdout with all trailing whitespace
stripped (Python `rstrip`, not only the trailing newline). -/
theorem C9_shell_capture (sh : Str → Str × Str × Int)
    (cmd out err : Str) (code : Int) (n : Nat)
    (hne : cmd ≠ []) (hnl : '\n' ∉ cmd) (hd : '$' ∉ out)
    (hsh : sh cmd = (out, err, code)) :
    (err ≠ [] →
      execshellcmds sh (n + 1) ('$' :: '(' :: (cmd ++ [')'])) =
        some (.error (rstripL err))) ∧
    (err = [] →
      execshellcmds sh (n + 1) ('$' :: '(' :: (cmd ++ [')'])) =
        some (.ok (rstripL out))) := by
  have hspan := findShell_head cmd hne hnl
  have hcmd : pySlice ('$' :: '(' :: (cmd ++ [')'])) (0 + 2)
      (cmd.length + 3 - 1) = cmd := by
    show ((('$' :: '(' :: (cmd ++ [')'])).take (cmd.length + 3 - 1)).drop
      (0 + 2)) = cmd
    have h31 : cmd.length + 3 - 1 = cmd.length + 2 := by omega
    rw [h31]
    show (('$' :: '(' :: (cmd ++ [')'])).take (cmd.length + 2)).drop 2 = cmd
    have ht : ('$' :: '(' :: (cmd ++ [')'])).take (cmd.length + 2) =
        '$' :: '(' :: (cmd ++ [')']).take cmd.length := rfl
    rw [ht, List.take_left]
    rfl
  have hmain : execshellcmds sh (n + 1) ('$' :: '(' :: (cmd ++ [')'])) =
      (if err ≠ [] then some (.error (rstripL err))
       else some (.ok (rstripL out))) := by
    show execLoop sh (n + 1) ('$' :: '(' :: (cmd ++ [')']))
        (findShell ('$' :: '(' :: (cmd ++ [')']))) = _
    rw [hspan, execLoop_succ, hcmd, hsh]
    by_cases herr : err ≠ []
    · rw [if_pos herr, if_pos herr]
    · rw [if_neg herr, if_neg herr]
      have hdrop : ('$' :: '(' :: (cmd ++ [')'])).drop (cmd.length + 3) =
          [] := by
        apply List.drop_eq_nil_of_le
        simp
      have htk : ('$' :: '(' :: (cmd ++ [')'])).take 0 = [] := rfl
      rw [hdrop, htk, List.nil_append, List.append_nil]
      have hnone : findShell ((rstripL out).drop (cmd.length + 3)) =
          none := by
        apply findShellAux_no_dollar
        intro c hc he
        subst he
        exact hd (mem_rstripL (List.mem_of_mem_drop hc))
      rw [hnone, execLoop_none]
  constructor
  · intro herr
    rw [hmain, if_pos herr]
  · intro herr
    rw [hmain, if_neg (fun hc => hc herr)]

/-- A shell oracle for the C9 witness: `date` succeeds with trailing
whitespace on stdout and a non-zero exit code. -/
def sh₉ : Str → Str × Str × Int := fun c =>
  if c = str "date" then (str "out \n", [], 5) else ([], str "boom", 0)

/-- Witness for C9: a silent-stderr child (despite exit code 5) is not
fatal, and the span is replaced by the fully rstripped stdout. -/
theorem C9_witness :
    execshellcmds sh₉ 1 ('$' :: '(' :: (str "date" ++ [')'])) =
      some (.ok (rstripL (str "out \n"))) :=
  (C9_shell_capture sh₉ (str "date") (str "out \n") [] 5 0 (by decide)
    (by decide) (by decide) rfl).2 rfl

/-- Claim C9, counterexample: a child that exits with status 1 but
writes nothing to stderr is NOT fatal — the span is replaced by the
stripped stdout — contradicting the claim that a non-zero exit makes
the expansion fatal. -/
theorem C9_counterexample :
    execshellcmds (fun _ => (str "out\n", [], 1)) 5 (str "$(false)") =
      some (.ok (str "out")) := by rfl
